import Mathlib

/-!
Shallow embedding of the `BlobArray` type-erased contiguous array
(`src/src/lib.rs`) and proofs of its specified properties.

Modelling choices:
* The element type `T` supplied by the caller on each Rust call is a Lean type
  parameter `α`.  The container stores raw bytes; since every operation
  reinterprets those bytes at the same type (a documented caller invariant),
  the block's live slots `[0, len)` are modelled as a `List α` named `data`,
  with `len = data.length`.  Slots between `len` and `capacity` are
  uninitialized memory that the code never reads, so they are not represented.
* `capacity` is the allocated slot count (`NonZeroUsize` in the source,
  modelled as a plain `Nat`; `new` only ever produces positive values).
* The `drop: Option<unsafe fn(*mut u8, usize)>` field is modelled by the
  boolean `hasDrop` (whether a destructor is present, i.e.
  `mem::needs_drop::<T>()`), together with the ghost observable `dropCount`:
  the total number of element-destructor invocations this store has performed.
  This makes destructor calls observable, as in an element type whose
  destructor increments a counter.
* Allocation always succeeds in the model (`handle_alloc_error` and the
  allocation-exhaustion policy are out of scope); the panic of
  `NonZeroUsize::try_from(capacity).unwrap()` on `capacity == 0` is modelled
  by the `panicked` outcome below.
-/

/-- Outcome of a Rust call, distinguishing a normal return (`ok`), a
recoverable error value returned to the caller (`invalidArgument`), and a
panic/termination that does not return a value to the caller (`panicked`). -/
inductive Outcome (α : Type) where
  | ok : α → Outcome α
  | invalidArgument : Outcome α
  | panicked : Outcome α
deriving DecidableEq, Repr

/-- The `BlobArray` store (`struct BlobArray` in the source).  `data` holds
the live elements of slots `0 .. len-1` in order; `capacity`, `hasDrop` and
`dropCount` are as described in the module docstring.  The `item_layout`
field carries no observable information once the element type is fixed, so it
is not represented. -/
structure BlobArray (α : Type) where
  data : List α
  capacity : Nat
  hasDrop : Bool
  dropCount : Nat
deriving DecidableEq, Repr

namespace BlobArray

variable {α : Type}

/-- The `len` field: number of live elements. -/
def len (b : BlobArray α) : Nat := b.data.length

@[simp] theorem len_eq (b : BlobArray α) : b.len = b.data.length := rfl

/-- `BlobArray::new::<T>(capacity)`.  `needsDrop` stands for
`mem::needs_drop::<T>()`.  `NonZeroUsize::try_from(capacity).unwrap()` panics
when `capacity == 0`; otherwise the block is allocated and the store starts
with `len = 0`.  No destructor has run yet, so `dropCount = 0`. -/
def new (α : Type) (needsDrop : Bool) (capacity : Nat) : Outcome (BlobArray α) :=
  if capacity = 0 then Outcome.panicked
  else Outcome.ok { data := [], capacity := capacity, hasDrop := needsDrop, dropCount := 0 }

/-- `BlobArray::realloc`: the block is reallocated to hold `newCapacity`
slots, preserving its contents; only `capacity` changes. -/
def realloc (b : BlobArray α) (newCapacity : Nat) : BlobArray α :=
  { b with capacity := newCapacity }

/-- `BlobArray::push::<T>(data)`: when `len == capacity` the block grows to
`capacity + 1`; then the value is written into slot `len` (append to the live
range) and `len` is incremented. -/
def push (b : BlobArray α) (x : α) : BlobArray α :=
  let b1 := if b.len = b.capacity then b.realloc (b.capacity + 1) else b
  { b1 with data := b1.data ++ [x] }

/-- `BlobArray::get::<T>(index)`: `None` when `index >= len`, otherwise a
shared reference to slot `index`'s element (modelled by its value). -/
def get (b : BlobArray α) (index : Nat) : Option α :=
  if b.len ≤ index then none else b.data[index]?

/-- `BlobArray::get_mut::<T>(index)`: `None` when `index >= len`, otherwise a
mutable reference to slot `index`'s element (modelled by its value). -/
def get_mut (b : BlobArray α) (index : Nat) : Option α :=
  if b.len ≤ index then none else b.data[index]?

/-- `BlobArray::get_cell::<T>(index)`: `None` when `index >= len`, otherwise
an `&UnsafeCell<T>` view of slot `index` (modelled by the element value it
gives access to). -/
def get_cell (b : BlobArray α) (index : Nat) : Option α :=
  if b.len ≤ index then none else b.data[index]?

/-- `BlobArray::swap_remove::<T>(index)`: `None` when `index >= len`.
Otherwise, with `last_index = len - 1`, the code decrements `len` and
* if `index < last_index`, swaps the bytes of slots `index` and `last_index`
  (so slot `index` now holds the old last element) and reads the value now at
  slot `last_index`, i.e. the element formerly at `index`;
* if `index == last_index`, reads the value at slot `last_index` out.
The returned pair is (returned `Option<T>`, store after the call); the live
range shrinks to the first `len - 1` slots. -/
def swap_remove (b : BlobArray α) (index : Nat) : Option α × BlobArray α :=
  if h : index < b.len then
    let lastIndex := b.len - 1
    let last := b.data.get ⟨lastIndex, Nat.sub_lt (Nat.lt_of_le_of_lt (Nat.zero_le index) h) Nat.one_pos⟩
    if index < lastIndex then
      (some (b.data.get ⟨index, h⟩),
       { b with data := (b.data.set index last).take lastIndex })
    else
      (some last, { b with data := b.data.take lastIndex })
  else
    (none, b)

/-- `BlobArray::clear`: the body is `if let Some(drop) = self.drop { ... }`.
When a destructor is present it is invoked over the live range `[0, len)`
(`dropCount` grows by `len`) and `self.len = 0` is executed.  When no
destructor is present the function does nothing at all — in particular `len`
is NOT reset (the `self.len = 0` statement sits inside the `if let`). -/
def clear (b : BlobArray α) : BlobArray α :=
  if b.hasDrop then
    { b with data := [], dropCount := b.dropCount + b.len }
  else
    b

/-- `impl Drop for BlobArray`: teardown runs `clear` and then deallocates the
block.  Its observable effect on the destructor counter is the final
`dropCount`. -/
def dropImpl (b : BlobArray α) : Nat := (b.clear).dropCount

/-- Push a whole sequence of values in order. -/
def pushAll (b : BlobArray α) (vs : List α) : BlobArray α := vs.foldl push b

end BlobArray

/-- `struct Iter<'a, T>`: holds the borrowed source store (the borrow freezes
the store for the iterator's lifetime, so the source is carried by value) and
the cursor field `next`. -/
structure Iter (α : Type) where
  source : BlobArray α
  next : Nat
deriving DecidableEq, Repr

namespace BlobArray

/-- `BlobArray::iter`: a fresh iterator with cursor 0. -/
def iter (b : BlobArray α) : Iter α := { source := b, next := 0 }

end BlobArray

namespace Iter

variable {α : Type}

/-- `Iterator::next for Iter`: `self.source.get_cell(self.next)`, and on a
`Some` result the cursor advances (`inspect(|_| self.next += 1)`).  Returns
the yielded item together with the iterator's new state. -/
def step (it : Iter α) : Option α × Iter α :=
  match it.source.get_cell it.next with
  | some x => (some x, { it with next := it.next + 1 })
  | none => (none, it)

/-- The full sequence an iterator yields when driven to exhaustion: repeated
`step` until it returns `none`. -/
def collect (it : Iter α) : List α :=
  match h : it.source.get_cell it.next with
  | some x => x :: collect { it with next := it.next + 1 }
  | none => []
termination_by it.source.len - it.next
decreasing_by
  simp only [BlobArray.get_cell] at h
  split at h
  · exact absurd h (by simp)
  · simp only [BlobArray.len_eq] at *
    omega

end Iter

/-- One structural operation on the store, for reasoning about operation
sequences: a push of a value or a `swap_remove` at an index. -/
inductive Op (α : Type) where
  | pushOp (x : α)
  | removeOp (i : Nat)

namespace BlobArray

variable {α : Type}

/-- Apply one operation to the store (discarding a removal's return value). -/
def applyOp (b : BlobArray α) : Op α → BlobArray α
  | Op.pushOp x => b.push x
  | Op.removeOp i => (b.swap_remove i).2

/-- Run a sequence of operations, returning the final store, the number of
pushes performed, and the number of successful removals (those that returned
`Some`). -/
def runOps (b : BlobArray α) : List (Op α) → BlobArray α × Nat × Nat
  | [] => (b, 0, 0)
  | Op.pushOp x :: ops =>
      let r := runOps (b.push x) ops
      (r.1, r.2.1 + 1, r.2.2)
  | Op.removeOp i :: ops =>
      let s := b.swap_remove i
      let r := runOps s.2 ops
      (r.1, r.2.1, if s.1.isSome then r.2.2 + 1 else r.2.2)

/-- `len ≤ capacity` holds after every single operation of the sequence. -/
def lenWithinCapAlong (b : BlobArray α) : List (Op α) → Bool
  | [] => true
  | op :: ops =>
      let b1 := b.applyOp op
      decide (b1.len ≤ b1.capacity) && lenWithinCapAlong b1 ops

/-! ### Basic lemmas about the operations -/

@[simp] theorem push_data (b : BlobArray α) (x : α) :
    (b.push x).data = b.data ++ [x] := by
  simp only [push, realloc]
  split <;> rfl

@[simp] theorem push_len (b : BlobArray α) (x : α) :
    (b.push x).len = b.len + 1 := by
  simp [len]

theorem push_capacity (b : BlobArray α) (x : α) :
    (b.push x).capacity = if b.len = b.capacity then b.capacity + 1 else b.capacity := by
  simp only [push, realloc]
  split <;> rfl

@[simp] theorem push_hasDrop (b : BlobArray α) (x : α) :
    (b.push x).hasDrop = b.hasDrop := by
  simp only [push, realloc]
  split <;> rfl

@[simp] theorem push_dropCount (b : BlobArray α) (x : α) :
    (b.push x).dropCount = b.dropCount := by
  simp only [push, realloc]
  split <;> rfl

theorem pushAll_data (b : BlobArray α) (vs : List α) :
    (b.pushAll vs).data = b.data ++ vs := by
  induction vs generalizing b with
  | nil => simp [pushAll]
  | cons v vs ih =>
      show ((b.push v).pushAll vs).data = b.data ++ v :: vs
      rw [ih, push_data]
      simp

theorem get_eq_getElem? (b : BlobArray α) (i : Nat) :
    b.get i = b.data[i]? := by
  simp only [get]
  split
  · next h => simp only [len_eq] at h; exact (List.getElem?_eq_none h).symm
  · rfl

theorem swap_remove_fst (b : BlobArray α) (i : Nat) (h : i < b.len) :
    (b.swap_remove i).1 = b.data[i]? := by
  simp only [swap_remove, dif_pos h]
  split
  · simp [List.get_eq_getElem, List.getElem?_eq_getElem]
  · next hge =>
      have hi : i = b.data.length - 1 := by simp only [len_eq] at *; omega
      subst hi
      simp [List.get_eq_getElem, List.getElem?_eq_getElem]

theorem swap_remove_none_iff (b : BlobArray α) (i : Nat) :
    (b.swap_remove i).1 = none ↔ b.len ≤ i := by
  constructor
  · intro hn
    by_contra hlt
    rw [swap_remove_fst b i (Nat.lt_of_not_le hlt), List.getElem?_eq_none_iff] at hn
    exact hlt hn
  · intro hle
    simp only [swap_remove]
    rw [dif_neg (Nat.not_lt_of_le hle)]

theorem swap_remove_snd_of_ge (b : BlobArray α) (i : Nat) (h : b.len ≤ i) :
    (b.swap_remove i).2 = b := by
  simp only [swap_remove]
  rw [dif_neg (Nat.not_lt_of_le h)]

theorem swap_remove_snd_data_length (b : BlobArray α) (i : Nat) (h : i < b.len) :
    (b.swap_remove i).2.data.length = b.len - 1 := by
  simp only [swap_remove, dif_pos h]
  split
  · simp only [len_eq] at *
    simp only [List.length_take, List.length_set]
    omega
  · simp only [len_eq] at *
    simp only [List.length_take]
    omega

theorem swap_remove_snd_len (b : BlobArray α) (i : Nat) (h : i < b.len) :
    (b.swap_remove i).2.len = b.len - 1 :=
  swap_remove_snd_data_length b i h

theorem swap_remove_snd_capacity (b : BlobArray α) (i : Nat) :
    (b.swap_remove i).2.capacity = b.capacity := by
  simp only [swap_remove]
  split
  · split <;> rfl
  · rfl

theorem swap_remove_snd_hasDrop (b : BlobArray α) (i : Nat) :
    (b.swap_remove i).2.hasDrop = b.hasDrop := by
  simp only [swap_remove]
  split
  · split <;> rfl
  · rfl

theorem swap_remove_snd_dropCount (b : BlobArray α) (i : Nat) :
    (b.swap_remove i).2.dropCount = b.dropCount := by
  simp only [swap_remove]
  split
  · split <;> rfl
  · rfl

/-- Value-level characterisation of the store after a successful
`swap_remove`: for every still-live slot `j`, slot `j` holds the old last
element when `j = i`, and its old value otherwise. -/
theorem swap_remove_snd_get (b : BlobArray α) (i j : Nat)
    (hi : i < b.len) (hj : j < b.len - 1) :
    (b.swap_remove i).2.get j = if j = i then b.get (b.len - 1) else b.get j := by
  have hlen : j < b.data.length - 1 := by simp only [len_eq] at *; omega
  have hget : ∀ k : Nat, k < b.len → b.get k = b.data[k]? := by
    intro k hk
    exact get_eq_getElem? b k
  rw [get_eq_getElem? _ j, get_eq_getElem? b j, get_eq_getElem? b (b.len - 1)]
  simp only [swap_remove, dif_pos hi]
  split
  · next hlt =>
      simp only
      rw [List.getElem?_take_of_lt (by simp only [len_eq] at *; omega)]
      by_cases hji : j = i
      · subst hji
        rw [List.getElem?_set_self (by simp only [len_eq] at *; omega)]
        simp [List.get_eq_getElem, List.getElem?_eq_getElem, len_eq]
      · rw [List.getElem?_set_ne (fun hc => hji hc.symm), if_neg hji]
  · next hge =>
      have hi' : i = b.len - 1 := by simp only [len_eq] at *; omega
      have hji : j ≠ i := by omega
      simp only
      rw [List.getElem?_take_of_lt (by simp only [len_eq] at *; omega)]
      rw [if_neg hji]

theorem clear_of_hasDrop (b : BlobArray α) (h : b.hasDrop = true) :
    b.clear = { b with data := [], dropCount := b.dropCount + b.len } := by
  simp [clear, h]

theorem clear_of_not_hasDrop (b : BlobArray α) (h : b.hasDrop = false) :
    b.clear = b := by
  simp [clear, h]

theorem push_len_le_capacity (b : BlobArray α) (x : α) (h : b.len ≤ b.capacity) :
    (b.push x).len ≤ (b.push x).capacity := by
  rw [push_len, push_capacity]
  split
  · next he => omega
  · next hne => omega

theorem swap_remove_len_le_capacity (b : BlobArray α) (i : Nat) (h : b.len ≤ b.capacity) :
    (b.swap_remove i).2.len ≤ (b.swap_remove i).2.capacity := by
  rw [swap_remove_snd_capacity]
  by_cases hi : i < b.len
  · rw [swap_remove_snd_len b i hi]; omega
  · rw [swap_remove_snd_of_ge b i (Nat.le_of_not_lt hi)]; exact h

theorem runOps_len_counts (ops : List (Op α)) : ∀ b : BlobArray α,
    (b.runOps ops).1.len + (b.runOps ops).2.2 = b.len + (b.runOps ops).2.1 := by
  induction ops with
  | nil => intro b; rfl
  | cons op ops ih =>
      intro b
      cases op with
      | pushOp x =>
          have h := ih (b.push x)
          rw [push_len] at h
          simp only [runOps]
          omega
      | removeOp i =>
          have h := ih (b.swap_remove i).2
          simp only [runOps]
          cases hs : (b.swap_remove i).1 with
          | none =>
              have hb : (b.swap_remove i).2 = b :=
                swap_remove_snd_of_ge b i ((swap_remove_none_iff b i).mp hs)
              rw [hb] at h ⊢
              simp only [hs, Option.isSome_none, Bool.false_eq_true, if_false]
              omega
          | some v =>
              have hi : i < b.len := by
                by_contra hge
                rw [(swap_remove_none_iff b i).mpr (Nat.le_of_not_lt hge)] at hs
                cases hs
              have hlen := swap_remove_snd_len b i hi
              rw [hlen] at h
              simp only [hs, Option.isSome_some, if_true]
              omega

theorem lenWithinCapAlong_of_le (ops : List (Op α)) : ∀ b : BlobArray α,
    b.len ≤ b.capacity → b.lenWithinCapAlong ops = true := by
  induction ops with
  | nil => intro b _; rfl
  | cons op ops ih =>
      intro b h
      have h1 : (b.applyOp op).len ≤ (b.applyOp op).capacity := by
        cases op with
        | pushOp x => exact push_len_le_capacity b x h
        | removeOp i => exact swap_remove_len_le_capacity b i h
      simp only [lenWithinCapAlong, Bool.and_eq_true, decide_eq_true_eq]
      exact ⟨h1, ih _ h1⟩

end BlobArray

namespace Iter

variable {α : Type}

theorem collect_of_none (it : Iter α) (h : it.source.get_cell it.next = none) :
    it.collect = [] := by
  rw [Iter.collect.eq_def]
  split
  · next x heq => rw [h] at heq; cases heq
  · rfl

theorem collect_of_some (it : Iter α) (x : α) (h : it.source.get_cell it.next = some x) :
    it.collect = x :: Iter.collect { it with next := it.next + 1 } := by
  rw [Iter.collect.eq_def]
  split
  · next y heq =>
      rw [h] at heq
      cases heq
      rfl
  · next heq => rw [h] at heq; cases heq

theorem collect_eq_drop (b : BlobArray α) (fuel : Nat) : ∀ k : Nat, b.len - k ≤ fuel →
    Iter.collect { source := b, next := k } = b.data.drop k := by
  induction fuel with
  | zero =>
      intro k hk
      have hle : b.len ≤ k := by omega
      rw [collect_of_none]
      · exact (List.drop_eq_nil_of_le hle).symm
      · simp only [BlobArray.get_cell]
        rw [if_pos hle]
  | succ fuel ih =>
      intro k hk
      by_cases hlt : k < b.len
      · have hcell : b.get_cell k = some (b.data.get ⟨k, hlt⟩) := by
          simp only [BlobArray.get_cell]
          rw [if_neg (Nat.not_le_of_lt hlt)]
          rw [List.getElem?_eq_getElem hlt]
          simp [List.get_eq_getElem]
        rw [collect_of_some _ _ hcell]
        have hrec := ih (k + 1) (by omega)
        rw [hrec]
        rw [List.drop_eq_getElem_cons hlt]
        simp [List.get_eq_getElem]
      · have hle : b.len ≤ k := Nat.le_of_not_lt hlt
        rw [collect_of_none]
        · exact (List.drop_eq_nil_of_le hle).symm
        · simp only [BlobArray.get_cell]
          rw [if_pos hle]

theorem step_of_lt (b : BlobArray α) (k : Nat) (hk : k < b.len) :
    Iter.step { source := b, next := k } =
      (b.data[k]?, { source := b, next := k + 1 }) := by
  have hcell : b.get_cell k = b.data[k]? := by
    simp only [BlobArray.get_cell]
    rw [if_neg (Nat.not_le_of_lt hk)]
  simp only [Iter.step, hcell]
  rw [List.getElem?_eq_getElem hk]

theorem step_of_ge (b : BlobArray α) (k : Nat) (hk : b.len ≤ k) :
    Iter.step { source := b, next := k } = (none, { source := b, next := k }) := by
  have hcell : b.get_cell k = none := by
    simp only [BlobArray.get_cell]
    rw [if_pos hk]
  simp only [Iter.step, hcell]

end Iter

/-! ### Claim theorems -/

/-- C1, evaluated at a failing input.  The spec claims `clear` resets `len`
to 0 even when no destructor is present, but in the source the statement
`self.len = 0` sits inside `if let Some(drop) = self.drop { .. }`, so for a
trivially-destructible element type `clear` leaves `len` unchanged.  On the
reachable capacity-1 store holding one element of a drop-free type, `clear`
leaves `len = 1`; with a destructor present, `clear` does reset `len` to 0. -/
theorem clear_no_destructor_keeps_len :
    BlobArray.new Nat false 1 = Outcome.ok (BlobArray.mk [] 1 false 0) ∧
    (((BlobArray.mk [] 1 false 0 : BlobArray Nat).push 42).clear).len = 1 ∧
    ((BlobArray.mk [42] 1 true 0 : BlobArray Nat).clear).len = 0 := by
  decide

/-- C2, counterexample to the claim as stated: construction with capacity 0
does not produce a recoverable `InvalidArgument` result; it panics
(`NonZeroUsize::try_from(0).unwrap()`). -/
theorem new_zero_capacity_not_invalid_argument :
    BlobArray.new Nat false 0 = Outcome.panicked ∧
    BlobArray.new Nat false 0 ≠ Outcome.invalidArgument := by
  decide

/-- C2 (amended): construction with capacity 0 fails by panicking — a
process-terminating failure, never a recoverable `InvalidArgument` value
returned to the caller — and construction with any capacity ≥ 1 succeeds,
yielding the empty store of that capacity. -/
theorem new_capacity_validation (α : Type) (nd : Bool) (cap : Nat) :
    BlobArray.new α nd 0 = Outcome.panicked ∧
    BlobArray.new α nd cap ≠ Outcome.invalidArgument ∧
    (1 ≤ cap → BlobArray.new α nd cap =
      Outcome.ok { data := [], capacity := cap, hasDrop := nd, dropCount := 0 }) := by
  refine ⟨rfl, ?_, ?_⟩
  · simp only [BlobArray.new]
    split <;> simp
  · intro h
    simp only [BlobArray.new]
    rw [if_neg (by omega)]

/-- Witness for C2's theorem at capacity 2. -/
theorem new_capacity_validation_witness :
    BlobArray.new Nat false 0 = Outcome.panicked ∧
    BlobArray.new Nat false 2 ≠ Outcome.invalidArgument ∧
    BlobArray.new Nat false 2 =
      Outcome.ok { data := [], capacity := 2, hasDrop := false, dropCount := 0 } := by
  have h := new_capacity_validation Nat false 2
  exact ⟨h.1, h.2.1, h.2.2 (by decide)⟩

/-- C3: for a store of length `n` and `i < n`, `swap_remove i` returns the
value formerly at slot `i` and shrinks the length to `n - 1`; when
`i < n - 1`, slot `i` afterwards holds the value formerly at slot `n - 1`;
when `i = n - 1`, every other live slot keeps its old value. -/
theorem swap_remove_semantics (α : Type) (b : BlobArray α) (i : Nat) (h : i < b.len) :
    (b.swap_remove i).1 = b.get i ∧
    (b.swap_remove i).2.len = b.len - 1 ∧
    (i < b.len - 1 → (b.swap_remove i).2.get i = b.get (b.len - 1)) ∧
    (i = b.len - 1 → ∀ j : Nat, j < b.len - 1 → (b.swap_remove i).2.get j = b.get j) := by
  refine ⟨?_, BlobArray.swap_remove_snd_len b i h, ?_, ?_⟩
  · rw [BlobArray.swap_remove_fst b i h, BlobArray.get_eq_getElem?]
  · intro hlt
    rw [BlobArray.swap_remove_snd_get b i i h hlt, if_pos rfl]
  · intro hi j hj
    rw [BlobArray.swap_remove_snd_get b i j h hj, if_neg (by omega)]

/-- Witness for C3 on the store `[10, 20, 30]` at indices 0 and 2. -/
theorem swap_remove_semantics_witness :
    ((BlobArray.mk [10, 20, 30] 3 false 0 : BlobArray Nat).swap_remove 0).1 = some 10 ∧
    ((BlobArray.mk [10, 20, 30] 3 false 0 : BlobArray Nat).swap_remove 0).2.len = 2 ∧
    ((BlobArray.mk [10, 20, 30] 3 false 0 : BlobArray Nat).swap_remove 0).2.get 0 = some 30 ∧
    ((BlobArray.mk [10, 20, 30] 3 false 0 : BlobArray Nat).swap_remove 2).2.get 1 = some 20 := by
  have h0 := swap_remove_semantics Nat (BlobArray.mk [10, 20, 30] 3 false 0) 0 (by decide)
  have h2 := swap_remove_semantics Nat (BlobArray.mk [10, 20, 30] 3 false 0) 2 (by decide)
  exact ⟨h0.1, h0.2.1, h0.2.2.1 (by decide), h2.2.2.2 (by decide) 1 (by decide)⟩

/-- C4: pushing `v0 .. v(n-1)` into a freshly constructed store and then
reading slot `i < n` with `get` returns `vi`. -/
theorem push_get_round_trip (α : Type) (nd : Bool) (cap : Nat) (b : BlobArray α)
    (hb : BlobArray.new α nd cap = Outcome.ok b) (vs : List α) (i : Nat)
    (hi : i < vs.length) :
    (b.pushAll vs).get i = some (vs.get ⟨i, hi⟩) := by
  simp only [BlobArray.new] at hb
  split at hb
  · cases hb
  · cases hb
    rw [BlobArray.get_eq_getElem?, BlobArray.pushAll_data]
    simp only [List.nil_append]
    rw [List.getElem?_eq_getElem hi]
    simp [List.get_eq_getElem]

/-- Witness for C4: push `[7, 8]` into a fresh capacity-1 store; `get 1`
returns 8. -/
theorem push_get_round_trip_witness :
    ((BlobArray.mk [] 1 false 0 : BlobArray Nat).pushAll [7, 8]).get 1 = some 8 :=
  push_get_round_trip Nat false 1 (BlobArray.mk [] 1 false 0) (by decide) [7, 8] 1 (by decide)

/-- C5: `push` appends the value (preserving all existing elements),
increments `len` by one, grows `capacity` to `capacity + 1` exactly when
`len = capacity` (and leaves it unchanged otherwise), and changes nothing
else about the store (destructor presence and destructor count are
untouched). -/
theorem push_effect (α : Type) (b : BlobArray α) (x : α) :
    (b.push x).data = b.data ++ [x] ∧
    (b.push x).len = b.len + 1 ∧
    (b.push x).capacity = (if b.len = b.capacity then b.capacity + 1 else b.capacity) ∧
    (b.push x).hasDrop = b.hasDrop ∧
    (b.push x).dropCount = b.dropCount :=
  ⟨BlobArray.push_data b x, BlobArray.push_len b x, BlobArray.push_capacity b x,
   BlobArray.push_hasDrop b x, BlobArray.push_dropCount b x⟩

/-- C6: `get`, `get_mut`, `get_cell` and `swap_remove` each return a
not-found result exactly when the index is at or beyond `len` (hence a
present result exactly when the index is within the live range). -/
theorem access_not_found_iff (α : Type) (b : BlobArray α) (i : Nat) :
    (b.get i = none ↔ b.len ≤ i) ∧
    (b.get_mut i = none ↔ b.len ≤ i) ∧
    (b.get_cell i = none ↔ b.len ≤ i) ∧
    ((b.swap_remove i).1 = none ↔ b.len ≤ i) := by
  refine ⟨?_, ?_, ?_, BlobArray.swap_remove_none_iff b i⟩ <;>
  · simp only [BlobArray.get, BlobArray.get_mut, BlobArray.get_cell]
    split
    · next h => simpa using h
    · next h =>
        rw [List.getElem?_eq_getElem (Nat.lt_of_not_le h)]
        simpa using h

/-- Witness for C6 on the store `[3]` at indices 0 and 1. -/
theorem access_not_found_iff_witness :
    ((BlobArray.mk [3] 1 false 0 : BlobArray Nat).get 0 ≠ none) ∧
    ((BlobArray.mk [3] 1 false 0 : BlobArray Nat).get_cell 1 = none) := by
  have h0 := access_not_found_iff Nat (BlobArray.mk [3] 1 false 0) 0
  have h1 := access_not_found_iff Nat (BlobArray.mk [3] 1 false 0) 1
  constructor
  · intro hc
    exact absurd (h0.1.mp hc) (by decide)
  · exact h1.2.2.1.mpr (by decide)

/-- C7: starting from an empty store whose length is within capacity, after
any sequence of pushes and `swap_remove`s the length equals the number of
pushes minus the number of successful removals (which never exceed the
pushes), and `len ≤ capacity` holds after every single operation. -/
theorem length_invariant (α : Type) (b0 : BlobArray α) (ops : List (Op α))
    (h0 : b0.len = 0) (hc : b0.len ≤ b0.capacity) :
    (b0.runOps ops).2.2 ≤ (b0.runOps ops).2.1 ∧
    (b0.runOps ops).1.len = (b0.runOps ops).2.1 - (b0.runOps ops).2.2 ∧
    b0.lenWithinCapAlong ops = true := by
  have h := BlobArray.runOps_len_counts ops b0
  exact ⟨by omega, by omega, BlobArray.lenWithinCapAlong_of_le ops b0 hc⟩

/-- Witness for C7: two pushes and one successful removal on a fresh
capacity-1 store leave length 1, with `len ≤ capacity` throughout. -/
theorem length_invariant_witness :
    ((BlobArray.mk [] 1 false 0 : BlobArray Nat).runOps
      [Op.pushOp 5, Op.pushOp 6, Op.removeOp 0]).1.len = 1 ∧
    (BlobArray.mk [] 1 false 0 : BlobArray Nat).lenWithinCapAlong
      [Op.pushOp 5, Op.pushOp 6, Op.removeOp 0] = true := by
  have h := length_invariant Nat (BlobArray.mk [] 1 false 0)
    [Op.pushOp 5, Op.pushOp 6, Op.removeOp 0] (by decide) (by decide)
  exact ⟨h.2.1, h.2.2⟩

/-- C8: for an element type with observable teardown (destructor present),
`clear` runs the destructor exactly once per live element (the destructor
counter grows by exactly `len`) and empties the store; clearing again is a
no-op (no double-destruction), and whole-container teardown (`Drop`, which
runs `clear` before deallocating) accounts for exactly the same
invocations. -/
theorem destructor_accounting (α : Type) (b : BlobArray α) (h : b.hasDrop = true) :
    (b.clear).dropCount = b.dropCount + b.len ∧
    (b.clear).len = 0 ∧
    (b.clear).clear = b.clear ∧
    b.dropImpl = b.dropCount + b.len := by
  simp [BlobArray.clear, BlobArray.dropImpl, BlobArray.len, h]

/-- Witness for C8 on a three-element store with a destructor. -/
theorem destructor_accounting_witness :
    ((BlobArray.mk [1, 2, 3] 3 true 0 : BlobArray Nat).clear).dropCount = 3 ∧
    ((BlobArray.mk [1, 2, 3] 3 true 0 : BlobArray Nat).clear).len = 0 ∧
    ((BlobArray.mk [1, 2, 3] 3 true 0 : BlobArray Nat).clear).clear =
      (BlobArray.mk [1, 2, 3] 3 true 0 : BlobArray Nat).clear ∧
    (BlobArray.mk [1, 2, 3] 3 true 0 : BlobArray Nat).dropImpl = 3 := by
  have h := destructor_accounting Nat (BlobArray.mk [1, 2, 3] 3 true 0) (by decide)
  exact ⟨h.1, h.2.1, h.2.2.1, h.2.2.2⟩

/-- C9: an iterator over a store yields exactly the live elements of slots
`0 .. len-1`, one per slot in increasing order (a step at cursor `k < len`
yields slot `k`'s cell), and once the cursor reaches `len` it yields nothing
and no longer advances. -/
theorem iter_yields_slots_in_order (α : Type) (b : BlobArray α) :
    (b.iter).collect = b.data ∧
    (∀ k : Nat, k < b.len →
      Iter.step { source := b, next := k } = (b.data[k]?, { source := b, next := k + 1 })) ∧
    (∀ k : Nat, b.len ≤ k →
      Iter.step { source := b, next := k } = (none, { source := b, next := k })) := by
  refine ⟨?_, Iter.step_of_lt b, Iter.step_of_ge b⟩
  have h := Iter.collect_eq_drop b b.len 0 (by omega)
  simpa [BlobArray.iter] using h

/-- Witness for C9 on the store `[4, 5]`. -/
theorem iter_yields_slots_in_order_witness :
    ((BlobArray.mk [4, 5] 2 false 0 : BlobArray Nat).iter).collect = [4, 5] ∧
    (Iter.step { source := (BlobArray.mk [4, 5] 2 false 0 : BlobArray Nat), next := 0 }).1 =
      some 4 ∧
    Iter.step { source := (BlobArray.mk [4, 5] 2 false 0 : BlobArray Nat), next := 2 } =
      (none, { source := (BlobArray.mk [4, 5] 2 false 0 : BlobArray Nat), next := 2 }) := by
  have h := iter_yields_slots_in_order Nat (BlobArray.mk [4, 5] 2 false 0)
  refine ⟨h.1, ?_, h.2.2 2 (by decide)⟩
  rw [h.2.1 0 (by decide)]
  rfl

/-- C10 (frame property of `swap_remove`): removing index `i < len - 1`
leaves every other still-live slot `j < len - 1`, `j ≠ i`, with exactly the
value it held before; only slot `i` and the removed last slot change. -/
theorem swap_remove_frame (α : Type) (b : BlobArray α) (i j : Nat)
    (hi : i < b.len - 1) (hj : j < b.len - 1) (hne : j ≠ i) :
    (b.swap_remove i).2.get j = b.get j := by
  rw [BlobArray.swap_remove_snd_get b i j (by omega) hj, if_neg hne]

/-- Witness for C10 on the store `[10, 20, 30]`: removing index 0 leaves
slot 1 holding 20. -/
theorem swap_remove_frame_witness :
    ((BlobArray.mk [10, 20, 30] 3 false 0 : BlobArray Nat).swap_remove 0).2.get 1 = some 20 :=
  swap_remove_frame Nat (BlobArray.mk [10, 20, 30] 3 false 0) 0 1 (by decide) (by decide)
    (by decide)
